import Mathlib

/-
  Verification development for the pypgsync replication engine.

  Shallow embedding conventions:
  * Python ints are modelled as ℤ, Python floats as ℚ (float arithmetic on the
    concrete inputs used below is exact, so the ℚ model agrees with the code).
  * Database scalars that may be NULL are modelled as `Option ℤ`.
  * Fallible code returns an explicit outcome type; a Python construct that
    does not terminate is modelled by a dedicated `diverges` constructor.
  * Tables are modelled by their column values: a list of watermark values for
    the select/window machinery, and a finite map from primary key to the
    non-primary-key columns for the upsert machinery.
-/

/-- Python `int(x)` on a float: truncation toward zero. -/
def pyInt (q : ℚ) : ℤ := if 0 ≤ q then ⌊q⌋ else ⌈q⌉

/-- Outcome of `list(intervals(start, end, n))` from `pypgsync/utils.py`.
`invalidRange` models the `ValueError` raised when `start > end`;
`diverges` models non-termination of the `while True` loop: when `n ≤ 0`
and `start ≤ end`, the running value `r` never exceeds `end + n`
(it starts at `start + n ≤ end + n` and never increases), so the break is
never reached and the generator yields forever. -/
inductive IntervalsOutcome where
  | invalidRange : IntervalsOutcome
  | diverges : IntervalsOutcome
  | ok : List (ℤ × ℤ) → IntervalsOutcome
deriving DecidableEq, Repr

/-- The body of the `while True` loop of `intervals`:
`r += n; if r > end + n: break; yield (int(r - n), int(min(r - 1, end)))`.
The fuel argument only bounds the number of iterations; `intervalsFuel`
below supplies enough fuel that the loop always stops by its own break
(see `intervalsGo_chain` and the concrete evaluations). -/
def intervalsGo : Nat → ℚ → ℚ → ℚ → List (ℤ × ℤ)
  | 0, _, _, _ => []
  | fuel + 1, endQ, n, r =>
    let r' := r + n
    if endQ + n < r' then []
    else (pyInt (r' - n), pyInt (min (r' - 1) endQ)) :: intervalsGo fuel endQ n r'

/-- Number of loop iterations of `intervals(start, end, n)` for `n > 0` and
`start ≤ end`: the loop yields for `r = start + k*n` as long as
`start + k*n ≤ end + n`, i.e. `⌊(end - start)/n⌋ + 1` times, plus one final
iteration that takes the break. -/
def intervalsFuel (start end_ : ℤ) (n : ℚ) : Nat :=
  (⌊((end_ : ℚ) - (start : ℚ)) / n⌋ + 2).toNat

/-- `pypgsync/utils.py`, `intervals(start, end, n)`:
raises `ValueError` when `start > end`; otherwise runs the `while True` loop,
which terminates by itself exactly when `n > 0` (and loops forever otherwise,
modelled by `diverges`). -/
def intervals (start end_ : ℤ) (n : ℚ) : IntervalsOutcome :=
  if end_ < start then .invalidRange
  else if 0 < n then .ok (intervalsGo (intervalsFuel start end_ n) (end_ : ℚ) n (start : ℚ))
  else .diverges

/-- Outcome of `Session.calculate_optimal_slices` (`pypgsync/session.py`).
`zeroDivision` models the Python `ZeroDivisionError` raised by
`(max_updated - starting_point) / m` when the parsed estimate `m` is `0`;
`invalidRange` and `diverges` are the propagated outcomes of
`list(intervals(...))`. -/
inductive SliceResult where
  | zeroDivision : SliceResult
  | invalidRange : SliceResult
  | diverges : SliceResult
  | ok : List (ℤ × ℤ) → ℕ → SliceResult
deriving DecidableEq, Repr

/-- `Session.calculate_optimal_slices`.  The database reads are inputs:
`starting_point` is `self.starting_point` (resolved watermark),
`src_max` is `MAX(updated)` of the source table, `max_updated` is
`self.max_updated` (the run start time captured by `start_single`), and `m`
is the row estimate parsed with `rows=([0-9]*)` from the `EXPLAIN` output
for the span `[starting_point, max_updated]`.  Python floats are modelled
exactly as ℚ. -/
def calculate_optimal_slices (starting_point src_max max_updated : ℤ) (m : ℕ) : SliceResult :=
  if src_max ≤ starting_point then .ok [] 0
  else if m = 0 then .zeroDivision
  else
    match intervals starting_point max_updated
        (((max_updated : ℚ) - (starting_point : ℚ)) / (m : ℚ) * 10000000) with
    | .invalidRange => .invalidRange
    | .diverges => .diverges
    | .ok l => .ok l m

/-- Python truthiness of a nullable integer scalar: `None` and `0` are falsy. -/
def pyTruthy : Option ℤ → Bool
  | none => false
  | some v => decide (v ≠ 0)

/-- `Session._get_starting_point`: reads `MAX(updated)` from the destination
(`dst_max`, `none` when the table is empty) and, when that value is falsy
(the code tests `if not min:`), replaces it by `MIN(updated)` from the
source (`src_min`). -/
def get_starting_point (dst_max src_min : Option ℤ) : Option ℤ :=
  if pyTruthy dst_max then dst_max else src_min

/-- The subquery of `Session.windowed_query`: `ROW_NUMBER() OVER (ORDER BY col)`
starts numbering at `rownum = 1`; a row is kept when `rownum % windowsize = 1`.
`rows` is the ordered column of the rows matched by the outer statement's
WHERE clause. -/
def boundariesFrom (windowsize rownum : ℤ) : List ℤ → List ℤ
  | [] => []
  | r :: rest =>
    if rownum % windowsize = 1 then r :: boundariesFrom windowsize (rownum + 1) rest
    else boundariesFrom windowsize (rownum + 1) rest

/-- The boundary list of `Session.windowed_query`: the modulo filter is applied
only `if windowsize > 1`; otherwise every row is a boundary. -/
def boundaries (rows : List ℤ) (windowsize : ℤ) : List ℤ :=
  if 1 < windowsize then boundariesFrom windowsize 1 rows else rows

/-- The `while windows:` loop of `Session.windowed_query`: pop the first
boundary as the window start, peek the next boundary (or `None`) as its end. -/
def windowPairs : List ℤ → List (ℤ × Option ℤ)
  | [] => []
  | [b] => [(b, none)]
  | b :: b' :: rest => (b, some b') :: windowPairs (b' :: rest)

/-- `interval_to_expr(start, end)` from `Session.windowed_query`, as the
predicate it imposes on a column value `x`.  The code tests `if end:`, which is
false both for `None` and for the integer `0`, so a boundary value `0` yields
the open-ended `column >= start` instead of `start <= column < 0`. -/
def interval_to_expr (start : ℤ) (stop : Option ℤ) (x : ℤ) : Bool :=
  match stop with
  | some e => if e ≠ 0 then decide (start ≤ x) && decide (x < e) else decide (start ≤ x)
  | none => decide (start ≤ x)

/-- `Session.windowed_query`: yields one `(predicate, rowcount)` pair per
boundary, with `rowcount = len(windows) * windowsize`. -/
def windowed_query (rows : List ℤ) (windowsize : ℤ) : List ((ℤ × Option ℤ) × ℤ) :=
  (windowPairs (boundaries rows windowsize)).map
    (fun w => (w, ((boundaries rows windowsize).length : ℤ) * windowsize))

/-- The select statement built in `Session.merge_chunks` for one slice:
`updated >= slice[0] AND updated <= slice[1]`, ordered ascending; `srcRows`
is the ordered `updated` column of the source table. -/
def slice_select (srcRows : List ℤ) (sl : ℤ × ℤ) : List ℤ :=
  srcRows.filter (fun x => decide (sl.1 ≤ x) && decide (x ≤ sl.2))

/-- `Session._chunkify`: executes each windowed statement and fetches its rows
(the slice's rows further filtered by the window predicate), paired with the
window's rowcount estimate. -/
def chunkify (sliceRows : List ℤ) (chunksize : ℤ) : List (List ℤ × ℤ) :=
  (windowed_query sliceRows chunksize).map
    (fun w => (sliceRows.filter (fun x => interval_to_expr w.1.1 w.1.2 x), w.2))

/-- The inner loop of `Session.merge_chunks`: for each chunk, upsert it, add
`len(chunk)` to the running counter, and yield
`(min(processed_rowcount, rowcount), rowcount, src_table_size)`.  Returns the
yielded tuples and the counter value after the slice.  The upsert itself does
not influence the yielded tuples; its effect on the destination is modelled
separately by `upsertChunk`. -/
def window_loop (m : ℕ) : List (List ℤ × ℤ) → ℤ → List (ℤ × ℤ × ℕ) × ℤ
  | [], processed => ([], processed)
  | (chunk, rowcount) :: rest, processed =>
    let processed' := processed + (chunk.length : ℤ)
    let tail := window_loop m rest processed'
    ((min processed' rowcount, rowcount, m) :: tail.1, tail.2)

/-- The outer loop of `Session.merge_chunks`: iterate over the planned slices,
threading the cross-slice counter `processed_rowcount`. -/
def merge_chunks_go (srcRows : List ℤ) (chunksize : ℤ) (m : ℕ) :
    List (ℤ × ℤ) → ℤ → List (ℤ × ℤ × ℕ)
  | [], _ => []
  | sl :: rest, processed =>
    let cur := window_loop m (chunkify (slice_select srcRows sl) chunksize) processed
    cur.1 ++ merge_chunks_go srcRows chunksize m rest cur.2

/-- `Session.merge_chunks`: the full sequence of progress tuples of a run, for
planned slices `slices`, source column `srcRows`, chunk size `chunksize` and
table-size estimate `m` (`self.src_table_size`).  The counter starts at `0`. -/
def merge_chunks (slices : List (ℤ × ℤ)) (srcRows : List ℤ) (chunksize : ℤ) (m : ℕ) :
    List (ℤ × ℤ × ℕ) :=
  merge_chunks_go srcRows chunksize m slices 0

/-- One row of the upsert statement of `Session.merge_chunks`: the destination
table is a map from primary key to the non-primary-key columns; `INSERT ... ON
CONFLICT DO UPDATE` writes the incoming row's non-key columns at its key,
whether or not the key was present. -/
def upsertRow {α : Type*} (dst : ℤ → Option α) (row : ℤ × α) : ℤ → Option α :=
  fun k => if k = row.1 then some row.2 else dst k

/-- The upsert executed for one fetched chunk: rows are applied in fetch
order (psycopg2 batch mode executes the statement once per parameter row). -/
def upsertChunk {α : Type*} (dst : ℤ → Option α) (chunk : List (ℤ × α)) : ℤ → Option α :=
  chunk.foldl upsertRow dst

/-- Connection state of one `Session.connect()` invocation: whether the source
and destination connections acquired at entry are still open. -/
structure ConnPair where
  srcOpen : Bool
  dstOpen : Bool
deriving DecidableEq, Repr

/-- `conn = self.src_engine.connect(), self.dst_engine.connect()`: both
connections are open after acquisition. -/
def connectAcquire : ConnPair := ⟨true, true⟩

/-- The `finally` clause of `Session.connect` is
`(c.close() for c in conn)`: a generator expression.  Evaluating a generator
expression runs none of its body; the object is discarded without ever being
iterated, so no `close()` call executes and the connection state is unchanged. -/
def connectFinally (conns : ConnPair) : ConnPair := conns

/-- State of the two connections when control leaves the `with` block of
`Session.connect`, for both exit paths (`bodyRaises = false`: the body
completed; `bodyRaises = true`: the body raised and the exception propagates
after `finally` runs). -/
def connectExit (bodyRaises : Bool) : ConnPair :=
  match bodyRaises with
  | false => connectFinally connectAcquire
  | true => connectFinally connectAcquire

/-- The watermark column `1..1000` of the end-to-end scenario. -/
def rows1to1000 : List ℤ := (List.range 1000).map (fun i => (i : ℤ) + 1)

/-- The watermark column `1..23` of the windowed-cursor scenario. -/
def rows1to23 : List ℤ := (List.range 23).map (fun i => (i : ℤ) + 1)

/-- Contiguous exact cover: `chainCover lo hi l` holds when the pairs of `l`
are `[lo, e₁], [e₁+1, e₂], …` with non-empty steps, ending exactly at `hi`. -/
def chainCover (lo hi : ℤ) : List (ℤ × ℤ) → Bool
  | [] => false
  | [p] => decide (p.1 = lo) && decide (p.2 = hi) && decide (lo ≤ hi)
  | p :: q :: rest => decide (p.1 = lo) && decide (p.1 ≤ p.2) && chainCover (p.2 + 1) hi (q :: rest)

section Lemmas

/-- `int()` of an integer-valued float is that integer. -/
theorem pyInt_intCast (a : ℤ) : pyInt (a : ℚ) = a := by
  unfold pyInt
  split
  · exact Int.floor_intCast a
  · exact Int.ceil_intCast a

/-- Once the running value has passed `end`, the loop stops at the break. -/
theorem intervalsGo_stop (fuel : ℕ) (endQ n r : ℚ) (h : endQ < r) :
    intervalsGo fuel endQ n r = [] := by
  cases fuel with
  | zero => rfl
  | succ f =>
    simp only [intervalsGo]
    rw [if_pos (add_lt_add_right h n)]

/-- While the running value has not passed `end`, the loop yields one pair and
continues at `r + n`. -/
theorem intervalsGo_yield (fuel : ℕ) (endQ n r : ℚ) (h : r ≤ endQ) :
    intervalsGo (fuel + 1) endQ n r =
      (pyInt r, pyInt (min (r + n - 1) endQ)) :: intervalsGo fuel endQ n (r + n) := by
  simp only [intervalsGo]
  rw [if_neg (not_lt.mpr (add_le_add_right h n)), add_sub_cancel_right]

theorem chainCover_ne_nil {lo hi : ℤ} {l : List (ℤ × ℤ)} (h : chainCover lo hi l = true) :
    l ≠ [] := by
  intro hnil
  subst hnil
  simp [chainCover] at h

/-- The first pair of a chain cover starts at the lower bound. -/
theorem chainCover_head {lo hi : ℤ} {p : ℤ × ℤ} {rest : List (ℤ × ℤ)}
    (h : chainCover lo hi (p :: rest) = true) : p.1 = lo := by
  cases rest with
  | nil => simp [chainCover] at h; exact h.1.1
  | cons q rest' => simp [chainCover] at h; exact h.1.1

/-- Every pair of a chain cover lies inside `[lo, hi]` and is well formed. -/
theorem chainCover_bounds :
    ∀ (l : List (ℤ × ℤ)) (lo hi : ℤ), chainCover lo hi l = true →
      lo ≤ hi ∧ ∀ p ∈ l, lo ≤ p.1 ∧ p.1 ≤ p.2 ∧ p.2 ≤ hi := by
  intro l
  induction l with
  | nil => intro lo hi h; simp [chainCover] at h
  | cons p rest ih =>
    intro lo hi h
    cases rest with
    | nil =>
      simp [chainCover] at h
      obtain ⟨⟨h1, h2⟩, h3⟩ := h
      refine ⟨h3, ?_⟩
      intro q hq
      simp at hq
      subst hq
      omega
    | cons q rest' =>
      simp [chainCover] at h
      obtain ⟨⟨h1, h2⟩, h3⟩ := h
      obtain ⟨hlh, hmem⟩ := ih (p.2 + 1) hi h3
      refine ⟨by omega, ?_⟩
      intro q' hq'
      rcases List.mem_cons.mp hq' with hq1 | hq1
      · subst hq1; omega
      · rcases hmem q' hq1 with ⟨ha, hb, hc⟩
        omega

/-- Consecutive pairs of a chain cover are contiguous: each pair starts one
past the previous pair's end. -/
theorem chainCover_chain :
    ∀ (l : List (ℤ × ℤ)) (lo hi : ℤ), chainCover lo hi l = true →
      List.Chain' (fun p q => q.1 = p.2 + 1) l := by
  intro l
  induction l with
  | nil => intro lo hi h; simp [chainCover] at h
  | cons p rest ih =>
    intro lo hi h
    cases rest with
    | nil => simp
    | cons q rest' =>
      simp [chainCover] at h
      obtain ⟨⟨h1, h2⟩, h3⟩ := h
      refine List.Chain'.cons ?_ (ih (p.2 + 1) hi h3)
      exact chainCover_head h3

/-- The pairs of a chain cover are pairwise disjoint and ascending: every
later pair starts strictly after an earlier pair ends. -/
theorem chainCover_pairwise :
    ∀ (l : List (ℤ × ℤ)) (lo hi : ℤ), chainCover lo hi l = true →
      List.Pairwise (fun p q => p.2 < q.1) l := by
  intro l
  induction l with
  | nil => intro lo hi h; simp [chainCover] at h
  | cons p rest ih =>
    intro lo hi h
    cases rest with
    | nil => simp
    | cons q rest' =>
      simp [chainCover] at h
      obtain ⟨⟨h1, h2⟩, h3⟩ := h
      refine List.Pairwise.cons ?_ (ih (p.2 + 1) hi h3)
      intro q' hq'
      rcases (chainCover_bounds _ _ _ h3).2 q' hq' with ⟨ha, hb, hc⟩
      omega

/-- The last pair of a chain cover ends exactly at the upper bound. -/
theorem chainCover_getLast :
    ∀ (l : List (ℤ × ℤ)) (lo hi : ℤ), chainCover lo hi l = true →
      l.getLast?.map Prod.snd = some hi := by
  intro l
  induction l with
  | nil => intro lo hi h; simp [chainCover] at h
  | cons p rest ih =>
    intro lo hi h
    cases rest with
    | nil =>
      simp [chainCover] at h
      simp [List.getLast?]
      exact h.1.2
    | cons q rest' =>
      simp [chainCover] at h
      rw [List.getLast?_cons_cons]
      exact ih (p.2 + 1) hi h.2

/-- A chain cover covers `[lo, hi]` exactly: an integer lies in some pair
if and only if it lies in `[lo, hi]`. -/
theorem chainCover_union :
    ∀ (l : List (ℤ × ℤ)) (lo hi : ℤ), chainCover lo hi l = true →
      ∀ x : ℤ, (lo ≤ x ∧ x ≤ hi) ↔ ∃ p ∈ l, p.1 ≤ x ∧ x ≤ p.2 := by
  intro l
  induction l with
  | nil => intro lo hi h; simp [chainCover] at h
  | cons p rest ih =>
    intro lo hi h x
    cases rest with
    | nil =>
      simp [chainCover] at h
      obtain ⟨⟨h1, h2⟩, h3⟩ := h
      subst h1; subst h2
      simp
    | cons q rest' =>
      simp [chainCover] at h
      obtain ⟨⟨h1, h2⟩, h3⟩ := h
      obtain ⟨hlh, hmem⟩ := chainCover_bounds _ _ _ h3
      constructor
      · rintro ⟨hx1, hx2⟩
        by_cases hcase : x ≤ p.2
        · exact ⟨p, by simp, by omega, hcase⟩
        · obtain ⟨p', hp', hp1, hp2⟩ := ((ih (p.2 + 1) hi h3 x).mp (by omega))
          exact ⟨p', by simp [hp'], hp1, hp2⟩
      · rintro ⟨p', hp', hp1, hp2⟩
        rcases List.mem_cons.mp hp' with hp3 | hp3
        · subst hp3
          omega
        · rcases hmem p' hp3 with ⟨ha, hb, hc⟩
          omega

/-- The fuel supplied by `intervals` dominates the number of loop iterations
for an integer step. -/
theorem intervalsFuel_bound (S E nn : ℤ) (hSE : S ≤ E) (hn : 1 ≤ nn) :
    E - S < ((intervalsFuel S E (nn : ℚ)) : ℤ) * nn := by
  unfold intervalsFuel
  set q : ℚ := ((E : ℚ) - (S : ℚ)) / (nn : ℚ) with hq
  have hnn : (0 : ℚ) < (nn : ℚ) := by exact_mod_cast (by omega : (0 : ℤ) < nn)
  have hES : (0 : ℚ) ≤ (E : ℚ) - (S : ℚ) := by
    have : ((S : ℤ) : ℚ) ≤ ((E : ℤ) : ℚ) := by exact_mod_cast hSE
    linarith
  have hq0 : 0 ≤ q := div_nonneg hES (le_of_lt hnn)
  have hfl0 : 0 ≤ ⌊q⌋ := Int.floor_nonneg.mpr hq0
  rw [Int.toNat_of_nonneg (by omega)]
  have h1 : q < (⌊q⌋ : ℚ) + 1 := Int.lt_floor_add_one q
  have h2 : (E : ℚ) - (S : ℚ) < ((⌊q⌋ : ℚ) + 1) * (nn : ℚ) := by
    rw [← div_mul_cancel₀ ((E : ℚ) - (S : ℚ)) (ne_of_gt hnn)]
    exact mul_lt_mul_of_pos_right h1 hnn
  have h3 : ((⌊q⌋ : ℚ) + 1) * (nn : ℚ) ≤ ((⌊q⌋ : ℚ) + 2) * (nn : ℚ) :=
    mul_le_mul_of_nonneg_right (by linarith) (le_of_lt hnn)
  have h4 : (E : ℚ) - (S : ℚ) < ((⌊q⌋ : ℚ) + 2) * (nn : ℚ) := lt_of_lt_of_le h2 h3
  exact_mod_cast h4

/-- Integer-step construction: with an integer step `nn ≥ 1` and enough fuel,
the loop builds a chain cover of `[a, e]` whose pairs each span at most `nn`
integers. -/
theorem intervalsGo_chain (nn e : ℤ) (hn : 1 ≤ nn) :
    ∀ (fuel : ℕ) (a : ℤ), a ≤ e → e - a < (fuel : ℤ) * nn →
      chainCover a e (intervalsGo fuel (e : ℚ) (nn : ℚ) (a : ℚ)) = true ∧
      ∀ p ∈ intervalsGo fuel (e : ℚ) (nn : ℚ) (a : ℚ), p.2 - p.1 + 1 ≤ nn := by
  intro fuel
  induction fuel with
  | zero =>
    intro a ha hf
    simp at hf
    omega
  | succ f ih =>
    intro a ha hf
    have hcast : ((a : ℚ)) ≤ (e : ℚ) := by exact_mod_cast ha
    rw [intervalsGo_yield f _ _ _ hcast]
    have hr : (a : ℚ) + (nn : ℚ) = ((a + nn : ℤ) : ℚ) := by push_cast; ring
    have hmin : pyInt (min ((a : ℚ) + (nn : ℚ) - 1) (e : ℚ)) = min (a + nn - 1) e := by
      rw [show (a : ℚ) + (nn : ℚ) - 1 = ((a + nn - 1 : ℤ) : ℚ) by push_cast; ring]
      rw [← Int.cast_min, pyInt_intCast]
    rw [hmin, pyInt_intCast, hr]
    have hfz : ((f + 1 : ℕ) : ℤ) * nn = (f : ℤ) * nn + nn := by push_cast; ring
    rw [hfz] at hf
    by_cases hend : a + nn ≤ e
    · have hf' : e - (a + nn) < (f : ℤ) * nn := by omega
      obtain ⟨ihc, ihs⟩ := ih (a + nn) hend hf'
      have hminL : min (a + nn - 1) e = a + nn - 1 := min_eq_left (by omega)
      rw [hminL]
      rcases hL : intervalsGo f (e : ℚ) (nn : ℚ) ((a + nn : ℤ) : ℚ) with _ | ⟨q, rest⟩
      · rw [hL] at ihc
        simp [chainCover] at ihc
      · rw [hL] at ihc ihs
        constructor
        · have hstep : a + nn - 1 + 1 = a + nn := by ring
          simp only [chainCover, hstep]
          simp [ihc]
          omega
        · intro p hp
          rcases List.mem_cons.mp hp with hcase | hcase
          · subst hcase
            simp
            omega
          · exact ihs p hcase
    · have hminR : min (a + nn - 1) e = e := min_eq_right (by omega)
      rw [hminR]
      have hstop : intervalsGo f (e : ℚ) (nn : ℚ) ((a + nn : ℤ) : ℚ) = [] := by
        refine intervalsGo_stop f _ _ _ ?_
        exact_mod_cast (by omega : e < a + nn)
      rw [hstop]
      constructor
      · simp [chainCover]
        omega
      · intro p hp
        simp at hp
        subst hp
        simp
        omega

/-- For an integer step `nn ≥ 1` and `start ≤ end`, `intervals` succeeds and
returns a chain cover of `[start, end]` by pairs spanning at most `nn`
integers each. -/
theorem intervals_int_chain (S E nn : ℤ) (hSE : S ≤ E) (hn : 1 ≤ nn) :
    ∃ l, intervals S E (nn : ℚ) = .ok l ∧ chainCover S E l = true ∧
      ∀ p ∈ l, p.2 - p.1 + 1 ≤ nn := by
  have hq : (0 : ℚ) < (nn : ℚ) := by exact_mod_cast (by omega : (0 : ℤ) < nn)
  obtain ⟨hc, hs⟩ :=
    intervalsGo_chain nn E hn (intervalsFuel S E (nn : ℚ)) S hSE
      (intervalsFuel_bound S E nn hSE hn)
  refine ⟨_, ?_, hc, hs⟩
  unfold intervals
  rw [if_neg (not_lt.mpr hSE), if_pos hq]

/-- A satisfied window predicate implies the value is at or after the start. -/
theorem interval_to_expr_le {start : ℤ} {stop : Option ℤ} {x : ℤ}
    (h : interval_to_expr start stop x = true) : start ≤ x := by
  cases stop with
  | none => simpa [interval_to_expr] using h
  | some e =>
    by_cases he : e = 0
    · simpa [interval_to_expr, he] using h
    · have h' : start ≤ x ∧ x < e := by simpa [interval_to_expr, he] using h
      exact h'.1

theorem boundariesFrom_sublist (ws : ℤ) :
    ∀ (rows : List ℤ) (k : ℤ), List.Sublist (boundariesFrom ws k rows) rows := by
  intro rows
  induction rows with
  | nil => intro k; simp [boundariesFrom]
  | cons r rest ih =>
    intro k
    by_cases h : k % ws = 1
    · simp only [boundariesFrom, if_pos h]
      exact List.Sublist.cons₂ r (ih (k + 1))
    · simp only [boundariesFrom, if_neg h]
      exact (ih (k + 1)).trans (List.sublist_cons_self r rest)

theorem boundaries_sublist (rows : List ℤ) (ws : ℤ) :
    List.Sublist (boundaries rows ws) rows := by
  unfold boundaries
  split
  · exact boundariesFrom_sublist ws rows 1
  · exact List.Sublist.refl rows

theorem boundaries_sorted {rows : List ℤ} (ws : ℤ) (h : rows.Sorted (· ≤ ·)) :
    (boundaries rows ws).Sorted (· ≤ ·) :=
  h.sublist (boundaries_sublist rows ws)

/-- The first row is always sampled as the first boundary: for `windowsize > 1`
its row number `1` satisfies `1 % windowsize = 1`, otherwise the rows are
taken as they are. -/
theorem boundaries_cons (ws r : ℤ) (rest : List ℤ) :
    ∃ tl, boundaries (r :: rest) ws = r :: tl := by
  by_cases hws : 1 < ws
  · refine ⟨boundariesFrom ws (1 + 1) rest, ?_⟩
    simp only [boundaries, if_pos hws, boundariesFrom]
    rw [if_pos (Int.emod_eq_of_lt (by omega) hws)]
  · exact ⟨rest, by simp only [boundaries, if_neg hws]⟩

theorem windowPairs_length : ∀ bs : List ℤ, (windowPairs bs).length = bs.length := by
  intro bs
  induction bs with
  | nil => rfl
  | cons b rest ih =>
    cases rest with
    | nil => rfl
    | cons c rest' =>
      rw [show windowPairs (b :: c :: rest') = (b, some c) :: windowPairs (c :: rest') from rfl]
      simp only [List.length_cons]
      rw [ih]
      simp

theorem windowPairs_start_mem : ∀ bs : List ℤ, ∀ w ∈ windowPairs bs, w.1 ∈ bs := by
  intro bs
  induction bs with
  | nil => intro w hw; simp [windowPairs] at hw
  | cons b rest ih =>
    cases rest with
    | nil =>
      intro w hw
      simp [windowPairs] at hw
      simp [hw]
    | cons c rest' =>
      intro w hw
      rcases List.mem_cons.mp hw with h | h
      · subst h; simp
      · exact List.mem_cons_of_mem b (ih w h)

theorem windowPairs_head? :
    ∀ (b : ℤ) (rest : List ℤ), ∃ e, (windowPairs (b :: rest)).head? = some (b, e) := by
  intro b rest
  cases rest with
  | nil => exact ⟨none, rfl⟩
  | cons c rest' => exact ⟨some c, rfl⟩

/-- Each window's recorded end is the next window's start. -/
theorem windowPairs_chain_stop :
    ∀ bs : List ℤ,
      List.Chain' (fun w w' : ℤ × Option ℤ => w.2 = some w'.1) (windowPairs bs) := by
  intro bs
  induction bs with
  | nil => simp [windowPairs]
  | cons b rest ih =>
    cases rest with
    | nil => simp [windowPairs]
    | cons c rest' =>
      rw [show windowPairs (b :: c :: rest') = (b, some c) :: windowPairs (c :: rest') from rfl]
      refine List.chain'_cons'.mpr ⟨?_, ih⟩
      intro y hy
      obtain ⟨e, he⟩ := windowPairs_head? c rest'
      rw [he] at hy
      simp at hy
      subst hy
      rfl

/-- Window starts appear in ascending (non-decreasing) boundary order. -/
theorem windowPairs_chain_le :
    ∀ bs : List ℤ, bs.Sorted (· ≤ ·) →
      List.Chain' (fun w w' : ℤ × Option ℤ => w.1 ≤ w'.1) (windowPairs bs) := by
  intro bs
  induction bs with
  | nil => intro _; simp [windowPairs]
  | cons b rest ih =>
    cases rest with
    | nil => intro _; simp [windowPairs]
    | cons c rest' =>
      intro hs
      obtain ⟨hb_le, hs_tail⟩ := List.sorted_cons.mp hs
      rw [show windowPairs (b :: c :: rest') = (b, some c) :: windowPairs (c :: rest') from rfl]
      refine List.chain'_cons'.mpr ⟨?_, ih hs_tail⟩
      intro y hy
      obtain ⟨e, he⟩ := windowPairs_head? c rest'
      rw [he] at hy
      simp at hy
      subst hy
      exact hb_le c (by simp)

/-- A value before every boundary matches no window. -/
theorem windowPairs_countP_zero (x : ℤ) :
    ∀ bs : List ℤ, (∀ c ∈ bs, x < c) →
      (windowPairs bs).countP (fun w => interval_to_expr w.1 w.2 x) = 0 := by
  intro bs h
  refine List.countP_eq_zero.mpr ?_
  intro w hw
  intro hp
  exact absurd (interval_to_expr_le hp)
    (not_le.mpr (h w.1 (windowPairs_start_mem bs w hw)))

/-- A value at or after the first boundary matches exactly one window,
provided every later boundary is nonzero (so that `if end:` keeps the
intended half-open bound). -/
theorem windowPairs_countP_one :
    ∀ (rest : List ℤ) (b x : ℤ), (b :: rest).Sorted (· ≤ ·) →
      (∀ c ∈ rest, c ≠ 0) → b ≤ x →
      (windowPairs (b :: rest)).countP (fun w => interval_to_expr w.1 w.2 x) = 1 := by
  intro rest
  induction rest with
  | nil =>
    intro b x _ _ hbx
    simp [windowPairs, List.countP_cons, interval_to_expr, hbx]
  | cons c rest' ih =>
    intro b x hs hnz hbx
    have hc0 : c ≠ 0 := hnz c (by simp)
    obtain ⟨hb_le, hs_tail⟩ := List.sorted_cons.mp hs
    rw [show windowPairs (b :: c :: rest') = (b, some c) :: windowPairs (c :: rest') from rfl,
      List.countP_cons]
    by_cases hxc : x < c
    · have hhead : interval_to_expr b (some c) x = true := by
        simp [interval_to_expr, hc0, hbx, hxc]
      have hrest : (windowPairs (c :: rest')).countP
          (fun w => interval_to_expr w.1 w.2 x) = 0 := by
        refine windowPairs_countP_zero x (c :: rest') ?_
        intro d hd
        rcases List.mem_cons.mp hd with h | h
        · subst h; exact hxc
        · have hcd : c ≤ d := (List.sorted_cons.mp hs_tail).1 d h
          omega
      rw [hrest, hhead]
      simp
    · have hhead : interval_to_expr b (some c) x = false := by
        simp [interval_to_expr, hc0, hxc]
      have hrest := ih c x hs_tail (fun d hd => hnz d (List.mem_cons_of_mem c hd)) (by omega)
      rw [hhead, hrest]
      simp

/-- Every window of one `windowed_query` call carries the same rowcount
estimate `len(windows) * windowsize`. -/
theorem windowed_query_rowcount (rows : List ℤ) (ws : ℤ) :
    ∀ w ∈ windowed_query rows ws, w.2 = ((boundaries rows ws).length : ℤ) * ws := by
  intro w hw
  obtain ⟨w', _, rfl⟩ := List.mem_map.mp hw
  rfl

theorem chunkify_rowcount (rows : List ℤ) (cs : ℤ) :
    ∀ cr ∈ chunkify rows cs, cr.2 = ((boundaries rows cs).length : ℤ) * cs := by
  intro cr hcr
  obtain ⟨w, hw, rfl⟩ := List.mem_map.mp hcr
  exact windowed_query_rowcount rows cs w hw

theorem window_loop_length (m : ℕ) :
    ∀ (chunks : List (List ℤ × ℤ)) (p : ℤ),
      (window_loop m chunks p).1.length = chunks.length := by
  intro chunks
  induction chunks with
  | nil => intro p; rfl
  | cons ch rest ih =>
    intro p
    obtain ⟨chunk, rc⟩ := ch
    simp only [window_loop, List.length_cons]
    rw [ih]

/-- Every tuple yielded by the inner loop carries the table estimate as third
component, is clamped below its second component, and takes that second
component from one of the chunks. -/
theorem window_loop_mem (m : ℕ) :
    ∀ (chunks : List (List ℤ × ℤ)) (p : ℤ), ∀ t ∈ (window_loop m chunks p).1,
      t.2.2 = m ∧ t.1 ≤ t.2.1 ∧ ∃ cr ∈ chunks, t.2.1 = cr.2 := by
  intro chunks
  induction chunks with
  | nil => intro p t ht; simp [window_loop] at ht
  | cons ch rest ih =>
    intro p t ht
    obtain ⟨chunk, rc⟩ := ch
    simp only [window_loop] at ht
    rcases List.mem_cons.mp ht with h | h
    · subst h
      exact ⟨rfl, min_le_right _ _, ⟨(chunk, rc), by simp, rfl⟩⟩
    · obtain ⟨h1, h2, cr, hcr, h3⟩ := ih _ t h
      exact ⟨h1, h2, cr, List.mem_cons_of_mem _ hcr, h3⟩

/-- One progress tuple is yielded per window of each planned slice. -/
theorem merge_chunks_go_length (srcRows : List ℤ) (cs : ℤ) (m : ℕ) :
    ∀ (slices : List (ℤ × ℤ)) (p : ℤ),
      (merge_chunks_go srcRows cs m slices p).length =
        ((slices.map
          (fun sl => (windowed_query (slice_select srcRows sl) cs).length)).sum) := by
  intro slices
  induction slices with
  | nil => intro p; rfl
  | cons sl rest ih =>
    intro p
    simp only [merge_chunks_go, List.length_append, List.map_cons, List.sum_cons]
    rw [window_loop_length, ih]
    simp [chunkify]

/-- Every progress tuple of a run carries the table estimate, is clamped below
its per-slice estimate, and its per-slice estimate is the windowed estimate of
one of the planned slices. -/
theorem merge_chunks_go_mem (srcRows : List ℤ) (cs : ℤ) (m : ℕ) :
    ∀ (slices : List (ℤ × ℤ)) (p : ℤ), ∀ t ∈ merge_chunks_go srcRows cs m slices p,
      t.2.2 = m ∧ t.1 ≤ t.2.1 ∧ ∃ sl ∈ slices,
        t.2.1 = ((boundaries (slice_select srcRows sl) cs).length : ℤ) * cs := by
  intro slices
  induction slices with
  | nil => intro p t ht; simp [merge_chunks_go] at ht
  | cons sl rest ih =>
    intro p t ht
    simp only [merge_chunks_go] at ht
    rcases List.mem_append.mp ht with h | h
    · obtain ⟨h1, h2, cr, hcr, h3⟩ := window_loop_mem m _ p t h
      refine ⟨h1, h2, sl, by simp, ?_⟩
      rw [h3]
      exact chunkify_rowcount _ cs cr hcr
    · obtain ⟨h1, h2, sl', hsl', h3⟩ := ih _ t h
      exact ⟨h1, h2, sl', List.mem_cons_of_mem _ hsl', h3⟩

/-- Closed form of the per-chunk upsert: the value at key `k` is the payload of
the last chunk row with that key, if any, else the previous value. -/
theorem upsertChunk_apply {α : Type*} :
    ∀ (chunk : List (ℤ × α)) (dst : ℤ → Option α) (k : ℤ),
      upsertChunk dst chunk k =
        match chunk.reverse.find? (fun r => r.1 == k) with
        | some r => some r.2
        | none => dst k := by
  intro chunk
  induction chunk with
  | nil => intro dst k; rfl
  | cons r chunk' ih =>
    intro dst k
    rw [show upsertChunk dst (r :: chunk') = upsertChunk (upsertRow dst r) chunk' from rfl, ih]
    rw [show (r :: chunk').reverse = chunk'.reverse ++ [r] from by simp]
    rw [List.find?_append]
    cases hf : chunk'.reverse.find? (fun s => s.1 == k) with
    | some s => simp [hf, Option.or]
    | none =>
      by_cases hk : r.1 = k
      · simp [hf, Option.or, List.find?, hk, upsertRow]
      · have hbeq : (r.1 == k) = false := by simp [hk]
        simp [hf, Option.or, List.find?, hbeq, upsertRow, Ne.symm hk]

end Lemmas


section Claims

/-- C6 counterexample: with the fractional step `3/2`, `intervals(1, 2, 3/2)`
returns the single pair `(1, 1)`, so the value `2 = end` lies in no produced
pair and the union does not equal `[start, end]`, contradicting the claim for
arbitrary `step > 0`. -/
theorem c6_intervals_counterexample :
    intervals 1 2 ((3 : ℚ) / 2) = .ok [(1, 1)] ∧
      ¬ ∃ p ∈ [((1 : ℤ), (1 : ℤ))], p.1 ≤ (2 : ℤ) ∧ (2 : ℤ) ≤ p.2 := by
  constructor
  · norm_num [intervals, intervalsFuel, intervalsGo, pyInt]
  · decide

/-- C6 (amended): for every integer step `nn ≥ 1` and `start ≤ end`,
`intervals` yields a non-empty sequence of pairs that is contiguous,
non-overlapping, ascending, each pair spanning at most `nn` integers, whose
union is exactly `[start, end]`, with the final pair clipped to `end`
(for fractional steps the final value can be missed, see the
counterexample); `intervals(1,1,5) = [(1,1)]`, `intervals(1,10,5) =
[(1,5),(6,10)]`, and `intervals(start, end, step)` fails with the
range error whenever `start > end`. -/
theorem c6_intervals_amended :
    (∀ start end_ nn : ℤ, start ≤ end_ → 1 ≤ nn →
      ∃ l, intervals start end_ (nn : ℚ) = .ok l ∧
        l ≠ [] ∧
        List.Chain' (fun p q => q.1 = p.2 + 1) l ∧
        List.Pairwise (fun p q => p.2 < q.1) l ∧
        (∀ p ∈ l, p.1 ≤ p.2 ∧ p.2 - p.1 + 1 ≤ nn) ∧
        (∀ x : ℤ, (start ≤ x ∧ x ≤ end_) ↔ ∃ p ∈ l, p.1 ≤ x ∧ x ≤ p.2) ∧
        l.getLast?.map Prod.snd = some end_) ∧
    intervals 1 1 (5 : ℚ) = .ok [(1, 1)] ∧
    intervals 1 10 (5 : ℚ) = .ok [(1, 5), (6, 10)] ∧
    (∀ (start end_ : ℤ) (n : ℚ), end_ < start → intervals start end_ n = .invalidRange) := by
  refine ⟨?_, ?_, ?_, ?_⟩
  · intro S E nn hSE hnn
    obtain ⟨l, hok, hc, hs⟩ := intervals_int_chain S E nn hSE hnn
    refine ⟨l, hok, chainCover_ne_nil hc, chainCover_chain l S E hc,
      chainCover_pairwise l S E hc, ?_, chainCover_union l S E hc,
      chainCover_getLast l S E hc⟩
    intro p hp
    have hb := (chainCover_bounds l S E hc).2 p hp
    exact ⟨hb.2.1, hs p hp⟩
  · norm_num [intervals, intervalsFuel, intervalsGo, pyInt]
  · norm_num [intervals, intervalsFuel, intervalsGo, pyInt]
  · intro S E n h
    simp [intervals, h]

/-- C6 witness: the amended statement at `start = 1`, `end = 10`, `step = 5`. -/
theorem c6_intervals_witness :
    ∃ l, intervals 1 10 (((5 : ℤ)) : ℚ) = .ok l ∧
      l ≠ [] ∧
      List.Chain' (fun p q => q.1 = p.2 + 1) l ∧
      List.Pairwise (fun p q => p.2 < q.1) l ∧
      (∀ p ∈ l, p.1 ≤ p.2 ∧ p.2 - p.1 + 1 ≤ 5) ∧
      (∀ x : ℤ, ((1 : ℤ) ≤ x ∧ x ≤ 10) ↔ ∃ p ∈ l, p.1 ≤ x ∧ x ≤ p.2) ∧
      l.getLast?.map Prod.snd = some 10 :=
  c6_intervals_amended.1 1 10 5 (by decide) (by decide)

/-- C1 counterexample: a run with watermark `0`, source max `2`, run start
time `2` and estimate `20000001` derives the fractional slice span
`20000000/20000001`; the produced slices are `[(0,0), (0,0), (1,1)]`, which
overlap (the first two coincide) and do not cover the watermark value `2`,
contradicting the claimed contiguity/coverage invariant. -/
theorem c1_slices_counterexample :
    calculate_optimal_slices 0 2 2 20000001 = .ok [(0, 0), (0, 0), (1, 1)] 20000001 ∧
      (¬ ∃ p ∈ [((0 : ℤ), (0 : ℤ)), (0, 0), (1, 1)], p.1 ≤ (2 : ℤ) ∧ (2 : ℤ) ≤ p.2) ∧
      ¬ List.Pairwise (fun p q : ℤ × ℤ => p.2 < q.1) [((0 : ℤ), (0 : ℤ)), (0, 0), (1, 1)] := by
  refine ⟨?_, by decide, by decide⟩
  norm_num [calculate_optimal_slices, intervals, intervalsFuel, intervalsGo, pyInt]

/-- C1 (amended): whenever the watermark lies strictly below the source
maximum, the estimate `m` is positive, and the derived slice span
`(runStartTime - watermark) / m * 10^7` is an integer `nn ≥ 1` (stated as
`10^7 * (runStartTime - watermark) = nn * m`), the planner returns slices
that are contiguous, non-overlapping, ascending and cover
`[watermark, runStartTime]` exactly; in particular the estimate `25,000,000`
over `[0, 100]` yields exactly the 3 contiguous slices
`(0,39), (40,79), (80,100)` covering `[0, 100]`.  For fractional spans the
invariant fails (see the counterexample). -/
theorem c1_slices_amended :
    (∀ (S sm E : ℤ) (m : ℕ) (nn : ℤ), S < sm → 0 < m → 1 ≤ nn →
      10000000 * (E - S) = nn * (m : ℤ) →
      ∃ l, calculate_optimal_slices S sm E m = .ok l m ∧
        l ≠ [] ∧
        List.Chain' (fun p q => q.1 = p.2 + 1) l ∧
        List.Pairwise (fun p q => p.2 < q.1) l ∧
        (∀ x : ℤ, (S ≤ x ∧ x ≤ E) ↔ ∃ p ∈ l, p.1 ≤ x ∧ x ≤ p.2)) ∧
    calculate_optimal_slices 0 100 100 25000000 =
      .ok [(0, 39), (40, 79), (80, 100)] 25000000 ∧
    (∀ x : ℤ, ((0 : ℤ) ≤ x ∧ x ≤ 100) ↔
      ∃ p ∈ [((0 : ℤ), (39 : ℤ)), (40, 79), (80, 100)], p.1 ≤ x ∧ x ≤ p.2) := by
  refine ⟨?_, ?_, ?_⟩
  · intro S sm E m nn hSsm hm hnn heq
    have hm' : (1 : ℤ) ≤ (m : ℤ) := by exact_mod_cast hm
    have hpos : 0 < nn * (m : ℤ) := mul_pos (by omega) (by omega)
    have hSE : S ≤ E := by nlinarith
    have hm0 : ((m : ℕ) : ℚ) ≠ 0 := by
      exact_mod_cast (by omega : (m : ℤ) ≠ 0)
    have hq' : (10000000 : ℚ) * ((E : ℚ) - (S : ℚ)) = (nn : ℚ) * ((m : ℕ) : ℚ) := by
      exact_mod_cast heq
    have hq : ((E : ℚ) - (S : ℚ)) / ((m : ℕ) : ℚ) * 10000000 = (nn : ℚ) := by
      rw [div_mul_eq_mul_div, div_eq_iff hm0]
      linarith
    obtain ⟨l, hok, hc, _⟩ := intervals_int_chain S E nn hSE hnn
    refine ⟨l, ?_, chainCover_ne_nil hc, chainCover_chain l S E hc,
      chainCover_pairwise l S E hc, chainCover_union l S E hc⟩
    unfold calculate_optimal_slices
    rw [if_neg (by omega), if_neg (by omega)]
    rw [hq, hok]
  · norm_num [calculate_optimal_slices, intervals, intervalsFuel, intervalsGo, pyInt]
  · exact chainCover_union _ 0 100 (by decide)

/-- C1 witness: the amended statement at watermark `0`, source max `100`,
run start time `100`, estimate `25,000,000`, slice span `40`. -/
theorem c1_slices_witness :
    ∃ l, calculate_optimal_slices 0 100 100 25000000 = .ok l 25000000 ∧
      l ≠ [] ∧
      List.Chain' (fun p q => q.1 = p.2 + 1) l ∧
      List.Pairwise (fun p q => p.2 < q.1) l ∧
      (∀ x : ℤ, ((0 : ℤ) ≤ x ∧ x ≤ 100) ↔ ∃ p ∈ l, p.1 ≤ x ∧ x ≤ p.2) :=
  c1_slices_amended.1 0 100 100 25000000 40 (by decide) (by decide) (by decide) (by decide)

/-- C3 counterexample: with a parsed estimate of `0` over the non-empty range
`[0, 100]`, `calculate_optimal_slices` raises `ZeroDivisionError` (the slice
length divides by `m` with no zero guard) instead of returning the single
full-range slice claimed by the spec. -/
theorem c3_zero_estimate_counterexample :
    calculate_optimal_slices 0 100 100 0 = .zeroDivision ∧
      calculate_optimal_slices 0 100 100 0 ≠ .ok [(0, 100)] 0 := by
  have h : calculate_optimal_slices 0 100 100 0 = .zeroDivision := by
    norm_num [calculate_optimal_slices]
  exact ⟨h, by rw [h]; decide⟩

/-- C3 (amended): whenever planning proceeds past the early return
(`watermark < src_max`) with estimate `0`, the slice-length computation
divides by zero and the planner fails with `ZeroDivisionError`; for every
positive estimate the division is by a nonzero value and no
`ZeroDivisionError` occurs. -/
theorem c3_zero_estimate_amended :
    (∀ S sm E : ℤ, S < sm → calculate_optimal_slices S sm E 0 = .zeroDivision) ∧
    (∀ (S sm E : ℤ) (m : ℕ), 1 ≤ m → calculate_optimal_slices S sm E m ≠ .zeroDivision) := by
  constructor
  · intro S sm E h
    unfold calculate_optimal_slices
    rw [if_neg (by omega)]
    rfl
  · intro S sm E m hm
    unfold calculate_optimal_slices
    by_cases h1 : sm ≤ S
    · rw [if_pos h1]
      simp
    · rw [if_neg h1, if_neg (by omega)]
      cases hI : intervals S E (((E : ℚ) - (S : ℚ)) / ((m : ℕ) : ℚ) * 10000000) with
      | invalidRange => simp
      | diverges => simp
      | ok l => simp

/-- C3 witness: both amended statements at watermark `0`, source max `100`,
run start time `100`, with estimates `0` and `1`. -/
theorem c3_zero_estimate_witness :
    calculate_optimal_slices 0 100 100 0 = .zeroDivision ∧
      calculate_optimal_slices 0 100 100 1 ≠ .zeroDivision :=
  ⟨c3_zero_estimate_amended.1 0 100 100 (by decide),
   c3_zero_estimate_amended.2 0 100 100 1 (by decide)⟩

/-- C5 counterexample: a run whose resolved watermark `100` is at or above the
run start time `50`, but below the source maximum `200`: the claim requires
the empty plan `([], 0)`, yet the code compares the watermark against the
source maximum, proceeds, and fails with `InvalidRangeError` from
`intervals(100, 50, ...)`. -/
theorem c5_empty_run_counterexample :
    calculate_optimal_slices 100 200 50 5 = .invalidRange ∧
      calculate_optimal_slices 100 200 50 5 ≠ .ok [] 0 := by
  have h : calculate_optimal_slices 100 200 50 5 = .invalidRange := by
    norm_num [calculate_optimal_slices, intervals]
  exact ⟨h, by rw [h]; decide⟩

/-- C5 (amended): the planner returns the empty sequence with total `0` if
and only if the resolved watermark is at or above the source table's maximum
watermark `src_max` — not the run start time `max_updated`; when the
watermark is at or above the run start time but below `src_max`, the result
is never `([], 0)`. -/
theorem c5_empty_run_amended :
    ∀ (S sm E : ℤ) (m : ℕ),
      calculate_optimal_slices S sm E m = .ok [] 0 ↔ sm ≤ S := by
  intro S sm E m
  constructor
  · intro h
    by_contra hc
    unfold calculate_optimal_slices at h
    rw [if_neg hc] at h
    by_cases hm : m = 0
    · rw [if_pos hm] at h
      simp at h
    · rw [if_neg hm] at h
      cases hI : intervals S E (((E : ℚ) - (S : ℚ)) / ((m : ℕ) : ℚ) * 10000000) with
      | invalidRange => rw [hI] at h; simp at h
      | diverges => rw [hI] at h; simp at h
      | ok l =>
        rw [hI] at h
        simp at h
        exact hm h.2
  · intro h
    unfold calculate_optimal_slices
    rw [if_pos h]

/-- C5 witness: a watermark `100` at or above the source maximum `50` yields
the empty plan. -/
theorem c5_empty_run_witness :
    calculate_optimal_slices 100 50 200 7 = .ok [] 0 :=
  (c5_empty_run_amended 100 50 200 7).mpr (by decide)

/-- C2 counterexample: with a destination whose maximum watermark is `0` (a
non-null value) and a source minimum of `10`, the resolver returns `10`, not
`0`: the code's `if not min:` treats the scalar `0` as absent. -/
theorem c2_watermark_counterexample :
    get_starting_point (some 0) (some 10) = some 10 ∧ some (10 : ℤ) ≠ some (0 : ℤ) := by
  decide

/-- C2 (amended): the resolver returns the destination's `MAX(updated)`
whenever that value is non-null and nonzero, and falls back to the source's
`MIN(updated)` exactly when the destination maximum is null or `0`; an empty
destination with source range `[10, 50]` resolves to `10`, and a destination
maximum of `30` resolves to `30`. -/
theorem c2_watermark_amended :
    (∀ v : ℤ, v ≠ 0 → ∀ src : Option ℤ, get_starting_point (some v) src = some v) ∧
    (∀ src : Option ℤ, get_starting_point none src = src) ∧
    (∀ src : Option ℤ, get_starting_point (some 0) src = src) ∧
    get_starting_point none (some 10) = some 10 ∧
    get_starting_point (some 30) (some 10) = some 30 := by
  refine ⟨?_, ?_, ?_, by decide, by decide⟩
  · intro v hv src
    simp [get_starting_point, pyTruthy, hv]
  · intro src
    rfl
  · intro src
    rfl

/-- C2 witness: the amended statement at destination maximum `30`. -/
theorem c2_watermark_witness :
    get_starting_point (some 30) (some 10) = some 30 :=
  c2_watermark_amended.1 30 (by decide) (some 10)

/-- C4: the claim is right and the code is wrong.  The `finally` clause of
`Session.connect` evaluates the generator expression
`(c.close() for c in conn)` and discards it without iterating it, so neither
`close()` ever runs: on both exit paths (normal completion and exception)
both connections are still open when control leaves the context manager,
although the code's own comment says `close both connections`. -/
theorem c4_connect_leaves_connections_open :
    ∀ bodyRaises : Bool,
      (connectExit bodyRaises).srcOpen = true ∧
      (connectExit bodyRaises).dstOpen = true ∧
      connectExit bodyRaises ≠ ConnPair.mk false false := by
  intro b
  cases b
  · exact ⟨rfl, rfl, by decide⟩
  · exact ⟨rfl, rfl, by decide⟩

/-- C9: the per-window merge is idempotent: applying the same fetched chunk's
upsert twice leaves the destination exactly as applying it once, because on a
primary-key conflict every non-key column is overwritten with the incoming
value. -/
theorem c9_upsert_idempotent {α : Type*} (dst : ℤ → Option α) (chunk : List (ℤ × α)) :
    upsertChunk (upsertChunk dst chunk) chunk = upsertChunk dst chunk := by
  funext k
  simp only [upsertChunk_apply]
  cases hf : chunk.reverse.find? (fun r => r.1 == k) with
  | some r => simp [hf]
  | none => simp [hf]

/-- C10: every progress tuple yielded by `merge_chunks` satisfies
`first ≤ second`: the yielded first component is
`min(processed_rowcount, rowcount)`, so the reported processed count never
exceeds the per-slice estimate even though the internal counter accumulates
across slices. -/
theorem c10_progress_clamped (slices : List (ℤ × ℤ)) (srcRows : List ℤ)
    (cs : ℤ) (m : ℕ) :
    ∀ t ∈ merge_chunks slices srcRows cs m, t.1 ≤ t.2.1 := by
  intro t ht
  exact (merge_chunks_go_mem srcRows cs m slices 0 t ht).2.1

/-- C10 witness: the third tuple of the two-slice run over rows `1..4` is
clamped: it reports `2 ≤ 2` although the counter stands at `4`. -/
theorem c10_progress_clamped_witness :
    ((2 : ℤ), (2 : ℤ), (9 : ℕ)) ∈ merge_chunks [(1, 3), (4, 4)] [1, 2, 3, 4] 2 9 ∧
      ((2 : ℤ), (2 : ℤ), (9 : ℕ)).1 ≤ ((2 : ℤ), (2 : ℤ), (9 : ℕ)).2.1 :=
  ⟨by decide, c10_progress_clamped [(1, 3), (4, 4)] [1, 2, 3, 4] 2 9 (2, 2, 9) (by decide)⟩

/-- C7 counterexample: for the slice whose ordered rows are `[0, 0]` and
`chunkSize = 1`, both boundaries have value `0`; `if end:` treats the second
boundary `0` as absent, so the first window is the open-ended `col >= 0` and
the slice row `0` is matched by both windows: windows are not disjoint and do
not cover each row exactly once. -/
theorem c7_windowed_counterexample :
    windowed_query [0, 0] 1 = [((0, some 0), 2), ((0, none), 2)] ∧
      (windowed_query [0, 0] 1).countP
        (fun w => interval_to_expr w.1.1 w.1.2 0) = 2 := by
  decide

/-- C7 (amended): for every slice (ordered rows) and every `chunkSize`,
provided no sampled boundary after the first equals `0` (so `if end:` keeps
every intended upper bound), the cursor emits one predicate per sampled
boundary; each window's end is the next window's start and starts are
ascending; every window carries `rowcountEstimate = boundaryCount *
chunkSize`; and every row of the slice is matched by exactly one window
predicate.  For a slice with the 23 rows `1..23` and `chunkSize = 10` this
yields exactly 3 windows covering all 23 rows exactly once each. -/
theorem c7_windowed_amended :
    (∀ (rows : List ℤ) (ws : ℤ), rows.Sorted (· ≤ ·) →
      (∀ c ∈ (boundaries rows ws).tail, c ≠ 0) →
      (windowed_query rows ws).length = (boundaries rows ws).length ∧
      List.Chain' (fun w w' => w.1.2 = some w'.1.1) (windowed_query rows ws) ∧
      List.Chain' (fun w w' => w.1.1 ≤ w'.1.1) (windowed_query rows ws) ∧
      (∀ w ∈ windowed_query rows ws, w.2 = ((boundaries rows ws).length : ℤ) * ws) ∧
      (∀ x ∈ rows, (windowed_query rows ws).countP
        (fun w => interval_to_expr w.1.1 w.1.2 x) = 1)) ∧
    (windowed_query rows1to23 10).length = 3 ∧
    (∀ x ∈ rows1to23, (windowed_query rows1to23 10).countP
      (fun w => interval_to_expr w.1.1 w.1.2 x) = 1) := by
  refine ⟨?_, by decide, by decide⟩
  intro rows ws hsort hnz
  refine ⟨?_, ?_, ?_, windowed_query_rowcount rows ws, ?_⟩
  · rw [windowed_query, List.length_map, windowPairs_length]
  · rw [windowed_query]
    exact (List.chain'_map _).mpr (windowPairs_chain_stop (boundaries rows ws))
  · rw [windowed_query]
    exact (List.chain'_map _).mpr
      (windowPairs_chain_le (boundaries rows ws) (boundaries_sorted ws hsort))
  · intro x hx
    rw [windowed_query, List.countP_map]
    rcases hrows : rows with _ | ⟨r, rest⟩
    · subst hrows
      simp at hx
    · subst hrows
      obtain ⟨tl, htl⟩ := boundaries_cons ws r rest
      have hsb : (r :: tl).Sorted (· ≤ ·) := htl ▸ boundaries_sorted ws hsort
      have hnz' : ∀ c ∈ tl, c ≠ 0 := by
        intro c hc
        refine hnz c ?_
        rw [htl]
        simpa using hc
      have hrx : r ≤ x := by
        rcases List.mem_cons.mp hx with h | h
        · omega
        · exact (List.sorted_cons.mp hsort).1 x h
      rw [htl]
      exact windowPairs_countP_one tl r x hsb hnz' hrx

/-- C7 witness: the amended statement at the 23-row slice with chunk size 10. -/
theorem c7_windowed_witness :
    (windowed_query rows1to23 10).length = (boundaries rows1to23 10).length ∧
      (∀ x ∈ rows1to23, (windowed_query rows1to23 10).countP
        (fun w => interval_to_expr w.1.1 w.1.2 x) = 1) :=
  ⟨(c7_windowed_amended.1 rows1to23 10 (by decide) (by decide)).1,
   (c7_windowed_amended.1 rows1to23 10 (by decide) (by decide)).2.2.2.2⟩

/-- C8 counterexample: a two-slice run (slices `[1,3]` and `[4,4]` over rows
`1..4`, chunk size 2).  The third yielded tuple — the first window of the
second slice, whose fetched chunk holds exactly 1 row — reports first
component `2` (the cross-slice counter clamped to the slice estimate), not
the `1` row processed so far within that slice. -/
theorem c8_merge_counterexample :
    merge_chunks [(1, 3), (4, 4)] [1, 2, 3, 4] 2 10000000 =
      [(2, 4, 10000000), (3, 4, 10000000), (2, 2, 10000000)] ∧
      (chunkify (slice_select [1, 2, 3, 4] (4, 4)) 2).map (fun c => (c.1.length : ℤ)) = [1] ∧
      (2 : ℤ) ≠ 1 := by
  refine ⟨by decide, by decide, by decide⟩

set_option maxRecDepth 100000 in
/-- C8 (amended): `merge_chunks` yields exactly one tuple per window of each
planned slice; each tuple's third component is the table estimate and its
first component never exceeds its second, which is the windowed estimate
(`boundaryCount * chunkSize`) of one of the planned slices — the first
component is the cross-slice cumulative processed count clamped to that
estimate, not the within-slice count.  For source rows `1..1000`, an empty
destination and chunk size `100`, the planner produces the single slice
`[1, 1000]` and the engine emits exactly 10 tuples with strictly increasing
first components reaching `1000`. -/
theorem c8_merge_amended :
    (∀ (slices : List (ℤ × ℤ)) (srcRows : List ℤ) (cs : ℤ) (m : ℕ),
      (merge_chunks slices srcRows cs m).length =
        ((slices.map
          (fun sl => (windowed_query (slice_select srcRows sl) cs).length)).sum) ∧
      ∀ t ∈ merge_chunks slices srcRows cs m,
        t.2.2 = m ∧ t.1 ≤ t.2.1 ∧ ∃ sl ∈ slices,
          t.2.1 = ((boundaries (slice_select srcRows sl) cs).length : ℤ) * cs) ∧
    calculate_optimal_slices 1 1000 1000 1000 = .ok [(1, 1000)] 1000 ∧
    merge_chunks [(1, 1000)] rows1to1000 100 1000 =
      [(100, 1000, 1000), (200, 1000, 1000), (300, 1000, 1000), (400, 1000, 1000),
       (500, 1000, 1000), (600, 1000, 1000), (700, 1000, 1000), (800, 1000, 1000),
       (900, 1000, 1000), (1000, 1000, 1000)] ∧
    List.Chain' (· < ·)
      ((merge_chunks [(1, 1000)] rows1to1000 100 1000).map (fun t => t.1)) ∧
    ((merge_chunks [(1, 1000)] rows1to1000 100 1000).map (fun t => t.1)).getLast? =
      some 1000 := by
  have hbig : merge_chunks [(1, 1000)] rows1to1000 100 1000 =
      [(100, 1000, 1000), (200, 1000, 1000), (300, 1000, 1000), (400, 1000, 1000),
       (500, 1000, 1000), (600, 1000, 1000), (700, 1000, 1000), (800, 1000, 1000),
       (900, 1000, 1000), (1000, 1000, 1000)] := by decide
  refine ⟨?_, ?_, hbig, ?_, ?_⟩
  · intro slices srcRows cs m
    exact ⟨merge_chunks_go_length srcRows cs m slices 0,
      merge_chunks_go_mem srcRows cs m slices 0⟩
  · norm_num [calculate_optimal_slices, intervals, intervalsFuel, intervalsGo, pyInt]
  · rw [hbig]
    norm_num [List.chain'_cons]
  · rw [hbig]
    rfl

/-- C8 witness: the per-tuple part of the amended statement at the first
tuple of the two-slice run over rows `1..4`. -/
theorem c8_merge_witness :
    ((2 : ℤ), (4 : ℤ), (7 : ℕ)).2.2 = 7 ∧
      ((2 : ℤ), (4 : ℤ), (7 : ℕ)).1 ≤ ((2 : ℤ), (4 : ℤ), (7 : ℕ)).2.1 ∧
      ∃ sl ∈ [((1 : ℤ), (3 : ℤ)), (4, 4)], ((2 : ℤ), (4 : ℤ), (7 : ℕ)).2.1 =
        ((boundaries (slice_select [1, 2, 3, 4] sl) 2).length : ℤ) * 2 :=
  (c8_merge_amended.1 [(1, 3), (4, 4)] [1, 2, 3, 4] 2 7).2 (2, 4, 7) (by decide)

end Claims
